import Mathlib

/-!
Shallow embedding of the path-resolution and lazy deep-walk engine of
`assistStorageEntry.js` (class `AssistStorageEntry`).

Strings are modelled as `List Char`.  The JavaScript regexes of `getEntry`
are modelled by direct functional parsers that mirror the greedy,
backtracking semantics of the concrete patterns; the dynamic regex
`new RegExp('^' + rootPath)` of `loadDeep` is modelled as literal prefix
removal (faithful whenever the root path contains no regex
metacharacters).  `String.prototype.localeCompare` is modelled as
code-point lexicographic comparison, and the case-insensitive `i` regex
flag via `lowerChar`.  The callback-based asynchronous control flow is
modelled synchronously: each fetch consults an oracle mapping a node's
hierarchy and a page number to that backend response, and a walk whose
callback is never invoked (a guard returned early) is an explicit `stall`
outcome.
-/

namespace AssistStorage

/-- Characters of a string literal, for readable `List Char` constants. -/
def strL (s : String) : List Char := s.data

/-- ASCII lowercasing, modelling the `i` flag of the JS regexes. -/
def lowerChar (c : Char) : Char :=
  if 'A' ≤ c && c ≤ 'Z' then Char.ofNat (c.toNat + 32) else c

/-- Case-insensitive literal-pattern anchored match: does `pat` (given in
lowercase) match a prefix of the input? -/
def isPrefixCI : List Char → List Char → Bool
  | [], _ => true
  | _ :: _, [] => false
  | [p], c :: _ => p == lowerChar c
  | p :: ps, c :: cs => (p == lowerChar c) && isPrefixCI ps cs

/-- Model of JS `s.replace(/pat.*$/i, rep)` for a literal `pat`: the first
position where `pat` matches (case-insensitively) starts the match, the
greedy `.*` consumes the whole remainder, and that match is replaced by
`rep`. -/
def replaceDotStar (pat rep : List Char) : List Char → List Char
  | [] => if pat.isEmpty then rep else []
  | c :: cs => if isPrefixCI pat (c :: cs) then rep else c :: replaceDotStar pat rep cs

/-- Scheme-token canonicalization of `getEntry` (lines 360-363 of the
source): `type.replace(/s3.*`/i, 's3').replace(/adl.*`/i, 'adls')
.replace(/abfs.*`/i, 'abfs').replace(/ofs.*`/i, 'ofs')`. -/
def canonType (t : List Char) : List Char :=
  replaceDotStar (strL "ofs") (strL "ofs")
    (replaceDotStar (strL "abfs") (strL "abfs")
      (replaceDotStar (strL "adl") (strL "adls")
        (replaceDotStar (strL "s3") (strL "s3") t)))

/-- JS `String.prototype.split('/')`: always returns at least one
component; `""` splits to `[""]`, separators at the ends produce empty
components. -/
def splitSlash : List Char → List (List Char)
  | [] => [[]]
  | c :: cs =>
    if c = '/' then [] :: splitSlash cs
    else
      match splitSlash cs with
      | [] => [[c]]
      | s :: ss => (c :: s) :: ss

/-- JS `Array.prototype.join('/')`. -/
def joinSlash : List (List Char) → List Char
  | [] => []
  | [a] => a
  | a :: b :: l => a ++ '/' :: joinSlash (b :: l)

/-- JS `s.replace(/(?:^\x2f)|(?:\x2f$)/g, '')`: removes one leading and one
trailing slash. -/
def stripSlashes (s : List Char) : List Char :=
  let s1 := match s with
    | '/' :: rest => rest
    | other => other
  if s1.getLast? = some '/' then s1.dropLast else s1

/-- Model of `s.replace(new RegExp('^' + rp, ''), '')` for a root path
`rp` free of regex metacharacters: drop `rp` when it is a literal prefix
of `s`. -/
def dropPrefixL (rp s : List Char) : List Char :=
  if rp.isPrefixOf s then s.drop rp.length else s

/-- The remaining-segment rewrite that `loadDeep` (lines 197-200) applies
before popping the next target whenever the node's `rootPath` is truthy:
join with `/`, delete a leading occurrence of the root path, re-split. -/
def rewriteFolders (rp : List Char) (folders : List (List Char)) : List (List Char) :=
  if rp = [] then folders else splitSlash (dropPrefixL rp (joinSlash folders))

/-- Model of `path.match(/^([^:]+):\x2f(\x2f.*)\x2f?/i)` (line 358): the
scheme token before the first colon, and group 2 (a slash followed by the
rest).  The pattern requires `scheme://`; the trailing optional slash is
absorbed by the greedy `.*`. -/
def typeMatchF (p : List Char) : Option (List Char × List Char) :=
  let t := p.takeWhile (fun c => c != ':')
  match t, p.drop t.length with
  | [], _ => none
  | _ :: _, ':' :: '/' :: '/' :: rest => some (t, '/' :: rest)
  | _ :: _, _ => none

/-- JS `\w`: ASCII letters, digits and underscore. -/
def isWordChar (c : Char) : Bool := c.isAlphanum || c == '_'

/-- Greedy repetitions of `[\x2d\x2e]\w+`: the list of parsed
(separator, word) pairs and the unconsumed remainder.  Fueled to keep the
recursion structural; each iteration consumes at least two characters. -/
def parseRepsGo : Nat → List Char → List (Char × List Char) × List Char
  | 0, s => ([], s)
  | _ + 1, [] => ([], [])
  | fuel + 1, c :: cs =>
    if c == '-' || c == '.' then
      let w := cs.takeWhile isWordChar
      if w.isEmpty then ([], c :: cs)
      else
        let r := parseRepsGo fuel (cs.drop w.length)
        ((c, w) :: r.1, r.2)
    else ([], c :: cs)

def parseReps (s : List Char) : List (Char × List Char) × List Char :=
  parseRepsGo s.length s

/-- Regex backtracking for `([\x2d\x2e]\w+)*\.\w*` after the greedy
repetitions failed to be followed by a dot: keep repetitions up to and
including the last dot-separated one (its dot becomes the mandatory `\.`,
its word the final `\w*`); fail if no repetition is dot-separated. -/
def trimToLastDot : List (Char × List Char) → Option (List (Char × List Char))
  | [] => none
  | r :: rs =>
    match trimToLastDot rs with
    | some ks => some (r :: ks)
    | none => if r.1 == '.' then some [r] else none

/-- The original text of a list of repetitions, prepended to `after`:
used to restore the unconsumed suffix when backtracking dropped trailing
repetitions. -/
def repsText (reps : List (Char × List Char)) (after : List Char) : List Char :=
  reps.foldr (fun r acc => r.1 :: r.2 ++ acc) after

/-- The host component of the azure pattern (line 384), i.e. group 2
`\x2f((\w+)@)?\w+([\x2d\x2e]\w+)*\.\w*` applied at the start of `b` (the
text after `scheme:/`).  Returns the optional account capture (group 4)
and the unconsumed remainder, or `none` when the group does not match. -/
def hostParse (b : List Char) : Option (Option (List Char) × List Char) :=
  match b with
  | '/' :: s =>
    let aw := s.takeWhile isWordChar
    let acct : Option (List Char) × List Char :=
      if !aw.isEmpty && (s.drop aw.length).headD ' ' == '@' then
        (some aw, s.drop (aw.length + 1))
      else (none, s)
    let w0 := acct.2.takeWhile isWordChar
    if w0.isEmpty then none
    else
      let s2 := acct.2.drop w0.length
      let pr := parseReps s2
      match pr.2 with
      | '.' :: a2 => some (acct.1, a2.drop (a2.takeWhile isWordChar).length)
      | _ =>
        match trimToLastDot pr.1 with
        | some kept => some (acct.1, repsText (pr.1.drop kept.length) pr.2)
        | none => none
  | _ => none

/-- Model of the azure match (line 383-385):
`path.match(/^([^:]+):\x2f(\x2f((\w+)@)?\w+([\x2d\x2e]\w+)*\.\w*)?(\x2f.*)?\x2f?/i)`.
Returns `none` when the whole regex fails (no `scheme:/` present), else
`some (group4?, group6?)`: the optional account name and the optional
trailing `/...` path.  When group 2 fails to match, group 6 is attempted
from the position right after `scheme:/`. -/
def azureResolve (p : List Char) : Option (Option (List Char) × Option (List Char)) :=
  let t := p.takeWhile (fun c => c != ':')
  match t, p.drop t.length with
  | _ :: _, ':' :: '/' :: b =>
    match hostParse b with
    | some (acct, rest) =>
      some (acct, if rest.headD ' ' == '/' then some rest else none)
    | none => some (none, if b.headD ' ' == '/' then some b else none)
  | _, _ => none

/-- The canonical storage kind `getEntry` computes (lines 358-363): the
embedded scheme token if present, else the explicit type hint, else
`hdfs`; then canonicalized. -/
def resolveKind (p : List Char) (hint : Option (List Char)) : List Char :=
  canonType (match typeMatchF p with
    | some tm => tm.1
    | none => hint.getD (strL "hdfs"))

/-- The segment list `getEntry` passes to `loadDeep` (lines 381-391):
for `abfs`/`adls` the azure pattern's trailing path (or the whole path if
the azure regex fails), slash-trimmed and split, with the account name
unshifted when captured; for every other kind the scheme-stripped
remainder (or the whole path), slash-trimmed and split. -/
def resolveSegments (p : List Char) (hint : Option (List Char)) : List (List Char) :=
  let ty := resolveKind p hint
  if ty == strL "abfs" || ty == strL "adls" then
    match azureResolve p with
    | some (acct, g6) =>
      let base := splitSlash (stripSlashes (g6.getD []))
      match acct with
      | some a => a :: base
      | none => base
    | none => splitSlash (stripSlashes p)
  else
    splitSlash (stripSlashes (match typeMatchF p with
      | some tm => tm.2
      | none => p))

/-- One backend listing entry as delivered by the fetch response
(`definition` in the source). -/
structure EntryDef where
  name : List Char
  typ : List Char
deriving Repr, DecidableEq

/-- The scalar state of an `AssistStorageEntry` node: identity, pagination
cursor, and load/error flags (constructor lines 60-111). -/
structure NodeCore where
  definition : EntryDef
  rootPath : List Char
  currentPage : Nat
  hasMorePages : Bool
  loaded : Bool
  loading : Bool
  loadingMore : Bool
  hasErrors : Bool
  errorText : Option (List Char)
deriving Repr, DecidableEq

/-- A node together with its loaded children (`entries`). -/
inductive Node where
  | mk (core : NodeCore) (entries : List Node)
deriving Repr

def Node.core : Node → NodeCore
  | .mk c _ => c

def Node.entries : Node → List Node
  | .mk _ es => es

def Node.name (n : Node) : List Char := n.core.definition.name

/-- A freshly constructed node: `currentPage = 1`, `hasMorePages = true`,
all flags clear, no entries (constructor lines 78-97). -/
def freshCore (d : EntryDef) (rootPath : List Char) : NodeCore :=
  { definition := d, rootPath := rootPath, currentPage := 1, hasMorePages := true,
    loaded := false, loading := false, loadingMore := false, hasErrors := false,
    errorText := none }

/-- A child node created from one fetched file entry (lines 156-164 and
287-296): it inherits the parent's `rootPath` and starts fresh. -/
def mkChild (rootPath : List Char) (f : EntryDef) : Node :=
  Node.mk (freshCore f rootPath) []

/-- A root node synthesized by `getEntry` (lines 369-379): its definition
name is the root path itself. -/
def freshRoot (rootPath : List Char) : Node :=
  Node.mk (freshCore ⟨rootPath, strL "dir"⟩ rootPath) []

/-- One backend page response: either a hard failure (the `errorCallback`
argument) or a successful payload with `data.files`,
`data.page.next_page_number` and the optional soft
`data.s3_listing_not_allowed` message. -/
inductive FetchResult where
  | success (files : List EntryDef) (nextPageNumber : Int) (softError : Option (List Char))
  | hardError (message : List Char)
deriving Repr, DecidableEq

/-- JS truthiness of the optional soft-error value (`!!x`): an absent
field and the empty string are falsy. -/
def truthy : Option (List Char) → Bool
  | some s => !s.isEmpty
  | none => false

/-- `data.files.filter(file => file.name !== '.' && file.name !== '..')`
(lines 154 and 284). -/
def filterDots (files : List EntryDef) : List EntryDef :=
  files.filter (fun f => f.name != strL "." && f.name != strL "..")

/-- `loadEntries` (lines 138-183) applied to the backend response for page
`currentPage`.  The guard `if (self.loading()) return;` leaves the state
unchanged (and, in the walk, means the callback is never invoked).  On
success the entries are REPLACED by the filtered page, `loaded` is set,
and the soft listing error drives `hasErrors`/`errorText`; on hard error
the flags are set and the entries left untouched. -/
def loadEntriesApply (st : Node) (resp : FetchResult) : Node :=
  if st.core.loading then st
  else
    match resp with
    | .success files npn soft =>
      Node.mk
        { st.core with
          hasMorePages := decide ((st.core.currentPage : Int) < npn),
          loaded := true, loading := false,
          hasErrors := truthy soft, errorText := soft }
        ((filterDots files).map (mkChild st.core.rootPath))
    | .hardError msg =>
      Node.mk
        { st.core with hasErrors := true, errorText := some msg, loading := false }
        st.entries

/-- What `fetchMore` did: nothing (its guard returned early, invoking no
callback), the success callback, or the error callback. -/
inductive FMOut where
  | noop
  | success
  | failure
deriving Repr, DecidableEq

/-- `fetchMore` (lines 268-311) applied to the backend response for the
incremented page.  Guard: no-op if `!hasMorePages || loadingMore`.  On
success the filtered page is APPENDED to the entries and `loadingMore`
cleared; the response's soft-error field is ignored.  On hard error only
`hasErrors` is set: `loadingMore` stays true and `errorText` is not
updated. -/
def fetchMoreStep (st : Node) (resp : FetchResult) : Node × FMOut :=
  if !st.core.hasMorePages || st.core.loadingMore then (st, .noop)
  else
    let c1 := { st.core with
      currentPage := st.core.currentPage + 1, loadingMore := true, hasErrors := false }
    match resp with
    | .success files npn _ =>
      (Node.mk
        { c1 with
          hasMorePages := decide ((c1.currentPage : Int) < npn),
          loadingMore := false }
        (st.entries ++ (filterDots files).map (mkChild st.core.rootPath)), .success)
    | .hardError _ =>
      (Node.mk { c1 with hasErrors := true } st.entries, .failure)

/-- Code-point lexicographic "greater than", modelling
`a.localeCompare(b) > 0` (line 209). -/
def lexGT : List Char → List Char → Bool
  | [], _ => false
  | _ :: _, [] => true
  | a :: as, b :: bs => if a = b then lexGT as bs else decide (b < a)

/-- The name of the last loaded child
(`entries[entries.length - 1].definition.name`). -/
def lastNameOf (es : List Node) : List Char :=
  match es.getLast? with
  | some e => e.name
  | none => []

/-- `entries().filter(entry => entry.definition.name === nextName)` with
the `length === 1` check of line 211: the unique child matching the
target, if exactly one matches. -/
def attemptFound (target : List Char) (st : Node) : Option Node :=
  match st.entries.filter (fun e => e.name == target) with
  | [e] => some e
  | _ => none

/-- `passedAlphabetically` (lines 207-209): the loaded children are
non-empty and the last one's name compares greater than the target. -/
def passedAlpha (target : List Char) (st : Node) : Bool :=
  !st.entries.isEmpty && lexGT (lastNameOf st.entries) target

/-- How the per-node search loop `findNextAndLoadDeep` ends: by recursing
into a uniquely matched child, by invoking the continuation with the node
itself, or by stalling (a `fetchMore` guard returned without invoking any
callback, so the walk's continuation is never called). -/
inductive LoopOutcome where
  | found (child : Node)
  | stopSelf
  | stall
deriving Repr

/-- The search loop `findNextAndLoadDeep` (lines 205-221) at one node for
one target.  `budget` is `50 - loadedPages`, so the initial call uses
budget 50; the oracle maps a page number to that page's response.
Returns the node's final state, the number of page fetches actually
issued by `fetchMore`, and the outcome. -/
def findNextLoop (oracle : Nat → FetchResult) (target : List Char) :
    Nat → Node → Node × Nat × LoopOutcome
  | 0, st =>
    match attemptFound target st with
    | some e => (st, 0, .found e)
    | none => (st, 0, .stopSelf)
  | budget + 1, st =>
    match attemptFound target st with
    | some e => (st, 0, .found e)
    | none =>
      if !passedAlpha target st && st.core.hasMorePages then
        match fetchMoreStep st (oracle (st.core.currentPage + 1)) with
        | (_, .noop) => (st, 0, .stall)
        | (st2, .success) =>
          let r := findNextLoop oracle target budget st2
          (r.1, r.2.1 + 1, r.2.2)
        | (st2, .failure) => (st2, 1, .stopSelf)
      else (st, 0, .stopSelf)

/-- Result of a deep walk: the continuation was invoked with a node, or
it was never invoked because a concurrency guard returned early
(`stall`), or the step fuel ran out (`outOfFuel`; never happens with
enough fuel, see the totality theorem). -/
inductive WalkResult where
  | done (n : Node)
  | stall
  | outOfFuel
deriving Repr

def isDone : WalkResult → Bool
  | .done _ => true
  | _ => false

/-- `loadDeep(folders, callback)` (lines 189-228).  The oracle maps a
node's hierarchy (its path from the root) and a page number to the
backend response.  One unit of fuel is consumed per tree level; the
per-node paging is bounded separately by the budget 50 of
`findNextLoop`. -/
def walk (oracle : List (List Char) → Nat → FetchResult) :
    Nat → List (List Char) → Node → List (List Char) → WalkResult
  | 0, _, _, _ => .outOfFuel
  | fuel + 1, path, st, folders =>
    if folders.isEmpty then .done st
    else
      let folders1 := rewriteFolders st.core.rootPath folders
      let target := folders1.headD []
      let rest := folders1.tail
      if st.core.loaded then
        match findNextLoop (oracle path) target 50 st with
        | (_, _, .found child) => walk oracle fuel (path ++ [target]) child rest
        | (stF, _, .stopSelf) => .done stF
        | (_, _, .stall) => .stall
      else if st.core.loading then .stall
      else
        match findNextLoop (oracle path) target 50
            (loadEntriesApply st (oracle path st.core.currentPage)) with
        | (_, _, .found child) => walk oracle fuel (path ++ [target]) child rest
        | (stF, _, .stopSelf) => .done stF
        | (_, _, .stall) => .stall

/-- Enough walk fuel for a segment list: each level's pop strictly
shrinks this bound, because one segment and one separator leave the
joined text. -/
def fuelNeed (folders : List (List Char)) : Nat :=
  match folders with
  | [] => 1
  | _ => 2 * (joinSlash folders).length + 2

mutual
/-- No load is in flight at this node or below: the state of any node on
which a fresh walk is started (fresh roots and fetched children satisfy
it). -/
def cleanB : Node → Bool
  | .mk c es => !c.loading && !c.loadingMore && cleanL es
def cleanL : List Node → Bool
  | [] => true
  | e :: es => cleanB e && cleanL es
end

/-- One externally triggered operation on a node: an initial page load or
a "fetch more", each with the backend response it receives. -/
inductive NodeOp where
  | load (resp : FetchResult)
  | more (resp : FetchResult)
deriving Repr

def applyOp (st : Node) : NodeOp → Node
  | .load r => loadEntriesApply st r
  | .more r => (fetchMoreStep st r).1

def applyOps (st : Node) : List NodeOp → Node
  | [] => st
  | op :: ops => applyOps (applyOp st op) ops

/-- The name carried by a `found` outcome. -/
def outcomeName : LoopOutcome → Option (List Char)
  | .found e => some e.name
  | _ => none

/-- The node a `done` walk delivered to its continuation. -/
def walkDoneNode : WalkResult → Option Node
  | .done n => some n
  | _ => none

/-! Concrete test data: a backend directory with 120 alphabetically
sorted entries served at page size 100, and a node that has received
three successful pages. -/

def digitChar (d : Nat) : Char := Char.ofNat (48 + d)

/-- Zero-padded sorted names: `f000`, `f001`, ... -/
def name3 (i : Nat) : List Char :=
  ['f', digitChar (i / 100), digitChar (i / 10 % 10), digitChar (i % 10)]

def files120 (lo n : Nat) : List EntryDef :=
  (List.range n).map (fun i => ⟨name3 (lo + i), strL "dir"⟩)

/-- Page oracle for the 120-entry directory: page 1 holds entries 0-99
with a continuation, page 2 holds entries 100-119 and is final. -/
def oracle120 : Nat → FetchResult
  | 1 => .success (files120 0 100) 2 none
  | 2 => .success (files120 100 20) 2 none
  | _ => .hardError (strL "unexpected page")

def oracle120W : List (List Char) → Nat → FetchResult := fun _ => oracle120

/-- A successful single-file page response with the given continuation. -/
def pageResp (nm : String) (npn : Int) : FetchResult :=
  .success [⟨strL nm, strL "dir"⟩] npn none

/-- A node that has loaded three successful pages (one initial load, two
fetch-mores) and still reports more pages. -/
def st3c : Node :=
  applyOps (freshRoot [])
    [.load (pageResp "a" 2), .more (pageResp "b" 3), .more (pageResp "c" 4)]

/-- A soft-error page response: empty file list, a
`s3_listing_not_allowed` message. -/
def softResp : FetchResult := .success [] 5 (some (strL "listing forbidden"))

end AssistStorage

namespace AssistStorage

/-! ### Basic accessor lemmas -/

@[simp]
theorem core_mk (c : NodeCore) (es : List Node) : (Node.mk c es).core = c := rfl

@[simp]
theorem entries_mk (c : NodeCore) (es : List Node) : (Node.mk c es).entries = es := rfl

@[simp]
theorem name_mk (c : NodeCore) (es : List Node) : (Node.mk c es).name = c.definition.name := rfl

@[simp]
theorem name_mkChild (rp : List Char) (f : EntryDef) : (mkChild rp f).name = f.name := rfl

/-! ### The per-node page bound (C1) -/

theorem findNextLoop_count_le (oracle : Nat → FetchResult) (target : List Char) :
    ∀ (b : Nat) (st : Node), (findNextLoop oracle target b st).2.1 ≤ b := by
  intro b
  induction b with
  | zero =>
    intro st
    simp only [findNextLoop]
    split <;> simp
  | succ n ih =>
    intro st
    simp only [findNextLoop]
    split
    · simp
    · split
      · split
        · simp
        · simpa using Nat.succ_le_succ (ih _)
        · simp
      · simp

/-- C1: a deep walk searching for one target segment at a single node
issues at most 50 page fetches before returning, for every target name
and every backend response sequence (sorted or not): the per-node
`loadedPages` counter (modelled by the budget `50 - loadedPages`) gates
each additional `fetchMore` below the bound of 50. -/
theorem c1_deep_walk_page_bound (oracle : Nat → FetchResult) (target : List Char) (st : Node) :
    (findNextLoop oracle target 50 st).2.1 ≤ 50 :=
  findNextLoop_count_le oracle target 50 st

/-! ### Soft listing errors (C2) -/

/-- C2 counterexample: after three successful pages, a `fetchMore` whose
response carries the soft listing error leaves the already-loaded entries
intact but does NOT set the node's error flag — `fetchMore`'s success
callback ignores `s3_listing_not_allowed`, so the claimed inline error
flag is not set. -/
theorem c2_soft_error_claim_false :
    (fetchMoreStep st3c softResp).1.core.hasErrors = false ∧
    (fetchMoreStep st3c softResp).1.entries = st3c.entries := by
  exact ⟨rfl, rfl⟩

/-- C2 amended: a `fetchMore` page carrying a soft listing error appends
its (filtered) files to the existing children, leaves the error flag
false and the error text unchanged; only the initial-page load
(`loadEntries`) surfaces the soft error as `hasErrors` with the inline
message, and it REPLACES the children with that response's own filtered
file list. -/
theorem c2_soft_error_amended :
    (∀ (st : Node) (files : List EntryDef) (npn : Int) (soft : Option (List Char)),
      st.core.hasMorePages = true → st.core.loadingMore = false →
      (fetchMoreStep st (.success files npn soft)).1.entries
          = st.entries ++ (filterDots files).map (mkChild st.core.rootPath)
        ∧ (fetchMoreStep st (.success files npn soft)).1.core.hasErrors = false
        ∧ (fetchMoreStep st (.success files npn soft)).1.core.errorText = st.core.errorText)
    ∧ (∀ (st : Node) (files : List EntryDef) (npn : Int) (soft : Option (List Char)),
      st.core.loading = false →
      (loadEntriesApply st (.success files npn soft)).core.hasErrors = truthy soft
        ∧ (loadEntriesApply st (.success files npn soft)).core.errorText = soft
        ∧ (loadEntriesApply st (.success files npn soft)).entries
            = (filterDots files).map (mkChild st.core.rootPath)) := by
  constructor
  · intro st files npn soft h1 h2
    simp [fetchMoreStep, h1, h2]
  · intro st files npn soft h
    simp [loadEntriesApply, h]

theorem c2_soft_error_amended_witness :
    st3c.core.hasMorePages = true ∧ st3c.core.loadingMore = false ∧
    ((fetchMoreStep st3c (.success [] 5 (some (strL "listing forbidden")))).1.entries
        = st3c.entries ++ (filterDots []).map (mkChild st3c.core.rootPath)
      ∧ (fetchMoreStep st3c (.success [] 5 (some (strL "listing forbidden")))).1.core.hasErrors
          = false
      ∧ (fetchMoreStep st3c (.success [] 5 (some (strL "listing forbidden")))).1.core.errorText
          = st3c.core.errorText) :=
  ⟨rfl, rfl, c2_soft_error_amended.1 st3c [] 5 (some (strL "listing forbidden")) rfl rfl⟩

/-! ### Concrete pagination scenario (C4) -/

/-- C4: for a node whose backend has 120 alphabetically sorted entries at
page size 100, descending toward a target in the second page issues
exactly one `fetchMore` and finds the target; descending toward a target
lexicographically before the first entry of page 1 issues zero additional
fetches after the initial page load (the last loaded child's name
compares greater than the target), leaves the node's state untouched, and
the walk returns that node itself. -/
theorem c4_pagination_concrete :
    (findNextLoop oracle120 (name3 110) 50 (loadEntriesApply (freshRoot []) (oracle120 1))).2.1 = 1
    ∧ outcomeName
        (findNextLoop oracle120 (name3 110) 50
          (loadEntriesApply (freshRoot []) (oracle120 1))).2.2 = some (name3 110)
    ∧ (findNextLoop oracle120 (strL "a") 50 (loadEntriesApply (freshRoot []) (oracle120 1))).2.1 = 0
    ∧ (findNextLoop oracle120 (strL "a") 50 (loadEntriesApply (freshRoot []) (oracle120 1))).2.2
        = LoopOutcome.stopSelf
    ∧ (findNextLoop oracle120 (strL "a") 50 (loadEntriesApply (freshRoot []) (oracle120 1))).1
        = loadEntriesApply (freshRoot []) (oracle120 1)
    ∧ walk oracle120W 2 [] (freshRoot []) [strL "a"]
        = .done (loadEntriesApply (freshRoot []) (oracle120 1)) := by
  exact ⟨by decide, by decide, by decide, rfl, rfl, rfl⟩

/-! ### The fetch-more hard-error latch (C10) -/

theorem applyOp_loadingMore (st : Node) (op : NodeOp) (h : st.core.loadingMore = true) :
    (applyOp st op).core.loadingMore = true := by
  cases op with
  | load r =>
    cases r <;> simp [applyOp, loadEntriesApply] <;> split <;> simp [h]
  | more r =>
    simp [applyOp, fetchMoreStep, h]

theorem applyOps_loadingMore (ops : List NodeOp) :
    ∀ st : Node, st.core.loadingMore = true → (applyOps st ops).core.loadingMore = true := by
  induction ops with
  | nil => intro st h; exact h
  | cons op ops ih => intro st h; exact ih _ (applyOp_loadingMore st op h)

/-- C10: a `fetchMore` that fails with a hard error never resets the
node's `loadingMore` flag, so every subsequent `fetchMore` on that node —
and any later operation sequence — sees `loadingMore = true` and returns
immediately as a no-op without issuing a fetch; the error path sets the
error flag but leaves the error message text unchanged. -/
theorem c10_fetchmore_error_latch (st : Node) (msg : List Char)
    (h1 : st.core.hasMorePages = true) (h2 : st.core.loadingMore = false) :
    (fetchMoreStep st (.hardError msg)).1.core.loadingMore = true
    ∧ (fetchMoreStep st (.hardError msg)).1.core.hasErrors = true
    ∧ (fetchMoreStep st (.hardError msg)).1.core.errorText = st.core.errorText
    ∧ (∀ r : FetchResult, fetchMoreStep (fetchMoreStep st (.hardError msg)).1 r
        = ((fetchMoreStep st (.hardError msg)).1, .noop))
    ∧ (∀ ops : List NodeOp,
        (applyOps (fetchMoreStep st (.hardError msg)).1 ops).core.loadingMore = true) := by
  have hstep : (fetchMoreStep st (.hardError msg)).1
      = Node.mk
          { st.core with
            currentPage := st.core.currentPage + 1
            loadingMore := true
            hasErrors := true }
          st.entries := by
    simp [fetchMoreStep, h1, h2]
  refine ⟨?_, ?_, ?_, ?_, ?_⟩
  · simp [hstep]
  · simp [hstep]
  · simp [hstep]
  · intro r
    rw [hstep]
    simp [fetchMoreStep]
  · intro ops
    exact applyOps_loadingMore ops _ (by simp [hstep])

theorem c10_fetchmore_error_latch_witness :
    st3c.core.hasMorePages = true ∧ st3c.core.loadingMore = false ∧
    (fetchMoreStep st3c (.hardError (strL "boom"))).1.core.loadingMore = true ∧
    (fetchMoreStep st3c (.hardError (strL "boom"))).1.core.hasErrors = true ∧
    (fetchMoreStep st3c (.hardError (strL "boom"))).1.core.errorText = st3c.core.errorText :=
  ⟨rfl, rfl,
    (c10_fetchmore_error_latch st3c (strL "boom") rfl rfl).1,
    (c10_fetchmore_error_latch st3c (strL "boom") rfl rfl).2.1,
    (c10_fetchmore_error_latch st3c (strL "boom") rfl rfl).2.2.1⟩

/-! ### Scheme canonicalization (C5) and ABFS account parsing (C6) -/

theorem canon_abfs_all (r : List Char) :
    canonType ('a' :: 'b' :: 'f' :: 's' :: r) = strL "abfs" := by
  match r with
  | [] => rfl
  | c :: r' =>
    rcases h : ('3' == lowerChar c) with _ | _
    · simp only [canonType, replaceDotStar, isPrefixCI, h]
      rfl
    · simp only [canonType, replaceDotStar, isPrefixCI, h]
      rfl

theorem canon_ofs_all (r : List Char) :
    canonType ('o' :: 'f' :: 's' :: r) = strL "ofs" := by
  match r with
  | [] => rfl
  | c :: r' =>
    rcases h : ('3' == lowerChar c) with _ | _
    · simp only [canonType, replaceDotStar, isPrefixCI, h]
      rfl
    · simp only [canonType, replaceDotStar, isPrefixCI, h]
      rfl

/-- C5: canonicalization maps every token starting with `s3` to `s3`,
`adl` to `adls`, `abfs` to `abfs`, `ofs` to `ofs`; when no scheme is
embedded in the path and no explicit hint is given the kind defaults to
`hdfs`; and concretely, `s3a://bucket/a/b` resolves to kind `s3` with
segments `bucket, a, b`, `adl://x/y` to kind `adls`, and `/tmp/x`
without a hint to kind `hdfs` with segments `tmp, x`. -/
theorem c5_canonicalization :
    (∀ r : List Char, canonType (strL "s3" ++ r) = strL "s3")
    ∧ (∀ r : List Char, canonType (strL "adl" ++ r) = strL "adls")
    ∧ (∀ r : List Char, canonType (strL "abfs" ++ r) = strL "abfs")
    ∧ (∀ r : List Char, canonType (strL "ofs" ++ r) = strL "ofs")
    ∧ (∀ p : List Char, typeMatchF p = none → resolveKind p none = strL "hdfs")
    ∧ resolveKind (strL "s3a://bucket/a/b") none = strL "s3"
    ∧ resolveSegments (strL "s3a://bucket/a/b") none = [strL "bucket", strL "a", strL "b"]
    ∧ resolveKind (strL "adl://x/y") none = strL "adls"
    ∧ resolveKind (strL "/tmp/x") none = strL "hdfs"
    ∧ resolveSegments (strL "/tmp/x") none = [strL "tmp", strL "x"] := by
  refine ⟨fun r => rfl, fun r => rfl, canon_abfs_all, canon_ofs_all, ?_, rfl, rfl, rfl, rfl, rfl⟩
  intro p h
  simp only [resolveKind, h]
  rfl

theorem c5_canonicalization_witness :
    typeMatchF (strL "/tmp/x") = none ∧ resolveKind (strL "/tmp/x") none = strL "hdfs" :=
  ⟨rfl, c5_canonicalization.2.2.2.2.1 (strL "/tmp/x") rfl⟩

/-- C6: for ABFS/ADLS paths the azure pattern separately captures the
optional `account@` prefix and the container-with-domain host component
plus the trailing path: `abfs://acct@container.dfs.core.windows.net/folder/sub`
resolves to kind `abfs` with segments `acct, folder, sub` — the account
name becomes the first segment, the container name and domain suffix are
not segments. -/
theorem c6_abfs_account_parsing :
    resolveKind (strL "abfs://acct@container.dfs.core.windows.net/folder/sub") none = strL "abfs"
    ∧ resolveSegments (strL "abfs://acct@container.dfs.core.windows.net/folder/sub") none
        = [strL "acct", strL "folder", strL "sub"] :=
  ⟨rfl, rfl⟩

/-! ### The root-path rewrite inside the deep walk (C9) -/

/-- C9: at every level of the deep walk — children inherit the parent's
`rootPath`, so the rewrite applies below the root too — a node with a
non-empty `rootPath` joins the remaining segments with a slash, deletes a
leading occurrence of the root path from the joined text, and re-splits
on slashes before popping the first target; a remaining-segment list
whose joined text begins with the root path text is silently rewritten,
possibly to a list containing an empty-string segment, as the concrete
instance shows. -/
theorem c9_rootpath_rewrite :
    (∀ (rp : List Char) (f : EntryDef), (mkChild rp f).core.rootPath = rp)
    ∧ (∀ (rp : List Char) (folders : List (List Char)), rp ≠ [] →
        rewriteFolders rp folders = splitSlash (dropPrefixL rp (joinSlash folders)))
    ∧ (∀ rp s : List Char, rp.isPrefixOf s = true → dropPrefixL rp s = s.drop rp.length)
    ∧ rewriteFolders (strL "user") [strL "user", strL "x"] = [[], strL "x"] := by
  refine ⟨fun rp f => rfl, ?_, ?_, rfl⟩
  · intro rp folders h
    simp [rewriteFolders, h]
  · intro rp s h
    simp [dropPrefixL, h]

/-! ### Children invariant (C8) -/

theorem mem_filterDots {f : EntryDef} {files : List EntryDef} (h : f ∈ filterDots files) :
    f.name ≠ strL "." ∧ f.name ≠ strL ".." := by
  rw [filterDots, List.mem_filter] at h
  have hp := h.2
  rw [Bool.and_eq_true] at hp
  exact ⟨by simpa using hp.1, by simpa using hp.2⟩

theorem applyOp_dotFree (st : Node) (op : NodeOp)
    (h : ∀ e ∈ st.entries, e.name ≠ strL "." ∧ e.name ≠ strL "..") :
    ∀ e ∈ (applyOp st op).entries, e.name ≠ strL "." ∧ e.name ≠ strL ".." := by
  cases op with
  | load r =>
    cases r with
    | success files npn soft =>
      simp only [applyOp, loadEntriesApply]
      split
      · exact h
      · simp only [entries_mk]
        intro e he
        obtain ⟨f, hf, rfl⟩ := List.mem_map.mp he
        simpa using mem_filterDots hf
    | hardError msg =>
      simp only [applyOp, loadEntriesApply]
      split
      · exact h
      · simpa using h
  | more r =>
    simp only [applyOp, fetchMoreStep]
    split
    · exact h
    · cases r with
      | success files npn soft =>
        simp only [entries_mk]
        intro e he
        rcases List.mem_append.mp he with he | he
        · exact h e he
        · obtain ⟨f, hf, rfl⟩ := List.mem_map.mp he
          simpa using mem_filterDots hf
      | hardError msg => simpa using h

/-- C8: after any sequence of `loadEntries` / `fetchMore` operations
starting from a node whose children already satisfy it, no entry in the
children list is named `.` or `..`; and every successful `fetchMore`
appends its filtered page results to the existing children list rather
than replacing it, so children are the concatenation of fetched pages in
arrival order. -/
theorem c8_children_invariant :
    (∀ (st : Node) (ops : List NodeOp),
      (∀ e ∈ st.entries, e.name ≠ strL "." ∧ e.name ≠ strL "..") →
      ∀ e ∈ (applyOps st ops).entries, e.name ≠ strL "." ∧ e.name ≠ strL "..")
    ∧ (∀ (st : Node) (files : List EntryDef) (npn : Int) (soft : Option (List Char)),
      st.core.hasMorePages = true → st.core.loadingMore = false →
      (fetchMoreStep st (.success files npn soft)).1.entries
        = st.entries ++ (filterDots files).map (mkChild st.core.rootPath)) := by
  constructor
  · intro st ops
    induction ops generalizing st with
    | nil => intro h; exact h
    | cons op ops ih => intro h; exact ih (applyOp st op) (applyOp_dotFree st op h)
  · intro st files npn soft h1 h2
    simp [fetchMoreStep, h1, h2]

theorem c8_children_invariant_witness :
    ((mkChild [] ⟨strL "a", strL "dir"⟩).name ≠ strL "."
      ∧ (mkChild [] ⟨strL "a", strL "dir"⟩).name ≠ strL "..")
    ∧ st3c.core.hasMorePages = true
    ∧ (fetchMoreStep st3c (.success [⟨strL "d", strL "dir"⟩] 5 none)).1.entries
        = st3c.entries ++ (filterDots [⟨strL "d", strL "dir"⟩]).map (mkChild st3c.core.rootPath) :=
  ⟨c8_children_invariant.1 (freshRoot []) [.load (pageResp "a" 2)] (by simp [freshRoot, freshCore])
      (mkChild [] ⟨strL "a", strL "dir"⟩) (List.mem_singleton.mpr rfl),
    rfl,
    c8_children_invariant.2 st3c [⟨strL "d", strL "dir"⟩] 5 none rfl rfl⟩

/-! ### Scheme-only paths (C3) -/

theorem takeWhile_append_colon (t u : List Char) (h : ∀ c ∈ t, c ≠ ':') :
    (t ++ ':' :: u).takeWhile (fun c => c != ':') = t := by
  induction t with
  | nil => simp [List.takeWhile]
  | cons a t ih =>
    have ha : (a != ':') = true := by
      simpa using h a (List.mem_cons_self a t)
    simp only [List.cons_append, List.takeWhile_cons, ha, if_true]
    rw [ih (fun c hc => h c (List.mem_cons_of_mem a hc))]

theorem typeMatch_scheme_only (a : Char) (t' : List Char) (h : ∀ c ∈ a :: t', c ≠ ':') :
    typeMatchF ((a :: t') ++ strL "://") = some (a :: t', strL "/") := by
  have h1 : ((a :: t') ++ strL "://").takeWhile (fun c => c != ':') = a :: t' :=
    takeWhile_append_colon (a :: t') (strL "//") h
  have h2 : ((a :: t') ++ strL "://").drop (a :: t').length = strL "://" :=
    List.drop_left (a :: t') (strL "://")
  simp only [typeMatchF, h1, h2]
  rfl

theorem azure_scheme_only (a : Char) (t' : List Char) (h : ∀ c ∈ a :: t', c ≠ ':') :
    azureResolve ((a :: t') ++ strL "://") = some (none, some (strL "/")) := by
  have h1 : ((a :: t') ++ strL "://").takeWhile (fun c => c != ':') = a :: t' :=
    takeWhile_append_colon (a :: t') (strL "//") h
  have h2 : ((a :: t') ++ strL "://").drop (a :: t').length = strL "://" :=
    List.drop_left (a :: t') (strL "://")
  simp only [azureResolve, h1, h2]
  rfl

/-- C3 counterexample: resolving a scheme-only path such as `s3a://`
yields the one-element segment list containing the empty string, not the
empty segment list the claim asserts. -/
theorem c3_scheme_only_claim_false :
    resolveSegments (strL "s3a://") none ≠ [] ∧
    resolveSegments (strL "s3a://") none = [[]] := by
  exact ⟨by decide, rfl⟩

/-- C3 amended: for every input path consisting only of a scheme with no
trailing content, resolution yields the one-element segment list whose
single segment is the empty string (JS `"".split('/')` is `[""]`), so the
walk does NOT hit the empty-segments base case: it pops the empty string
as target and proceeds — concretely, on a scheme-only resolution the walk
performs the initial page load and a further page fetch (current page 2)
instead of returning the untouched root (current page 1). -/
theorem c3_scheme_only_amended :
    (∀ (t : List Char) (hint : Option (List Char)), t ≠ [] → (∀ c ∈ t, c ≠ ':') →
        resolveSegments (t ++ strL "://") hint = [[]])
    ∧ (walkDoneNode (walk (fun _ _ => .hardError (strL "x")) 1 [] (freshRoot []) [[]])).map
        (fun n => n.core.currentPage) = some 2
    ∧ (freshRoot []).core.currentPage = 1 := by
  refine ⟨?_, rfl, rfl⟩
  intro t hint ht hc
  obtain ⟨a, t', rfl⟩ : ∃ a t', t = a :: t' := by
    cases t with
    | nil => exact absurd rfl ht
    | cons a t' => exact ⟨a, t', rfl⟩
  have htm := typeMatch_scheme_only a t' hc
  have haz := azure_scheme_only a t' hc
  have hkind : resolveKind ((a :: t') ++ strL "://") hint = canonType (a :: t') := by
    simp only [resolveKind, htm]
  simp only [resolveSegments, hkind, htm, haz]
  split
  · rfl
  · rfl

theorem c3_scheme_only_amended_witness :
    (strL "s3a" ≠ ([] : List Char))
    ∧ resolveSegments (strL "s3a" ++ strL "://") none = [[]] :=
  ⟨by decide, c3_scheme_only_amended.1 (strL "s3a") none (by decide) (by decide)⟩

theorem c9_rootpath_rewrite_witness :
    (strL "user" ≠ ([] : List Char))
    ∧ rewriteFolders (strL "user") [strL "user", strL "x"]
        = splitSlash (dropPrefixL (strL "user") (joinSlash [strL "user", strL "x"]))
    ∧ (strL "user").isPrefixOf (strL "user/x") = true
    ∧ dropPrefixL (strL "user") (strL "user/x") = (strL "user/x").drop (strL "user").length :=
  ⟨by decide,
    c9_rootpath_rewrite.2.1 (strL "user") [strL "user", strL "x"] (by decide),
    by decide,
    c9_rootpath_rewrite.2.2.1 (strL "user") (strL "user/x") (by decide)⟩

/-! ### Totality of the deep walk (C7): measure lemmas -/

theorem splitSlash_ne_nil (s : List Char) : splitSlash s ≠ [] := by
  cases s with
  | nil => simp [splitSlash]
  | cons c cs =>
    simp only [splitSlash]
    split
    · simp
    · split <;> simp

theorem joinSlash_splitSlash (s : List Char) : joinSlash (splitSlash s) = s := by
  induction s with
  | nil => rfl
  | cons c cs ih =>
    rcases hsp : splitSlash cs with _ | ⟨a, l'⟩
    · exact absurd hsp (splitSlash_ne_nil cs)
    · have ih' : joinSlash (a :: l') = cs := by rw [← hsp]; exact ih
      simp only [splitSlash]
      split
      · next h =>
        subst h
        rw [hsp]
        simp only [joinSlash, List.nil_append]
        rw [ih']
      · next h =>
        rw [hsp]
        show joinSlash ((c :: a) :: l') = c :: cs
        cases l' with
        | nil =>
          simp only [joinSlash] at ih' ⊢
          rw [ih']
        | cons b l'' =>
          simp only [joinSlash, List.cons_append] at ih' ⊢
          rw [ih']

theorem dropPrefixL_length_le (rp s : List Char) : (dropPrefixL rp s).length ≤ s.length := by
  simp only [dropPrefixL]
  split
  · simp
  · exact le_refl _

theorem rewriteFolders_ne_nil (rp : List Char) (folders : List (List Char))
    (h : folders ≠ []) : rewriteFolders rp folders ≠ [] := by
  simp only [rewriteFolders]
  split
  · exact h
  · exact splitSlash_ne_nil _

theorem joinSlash_rewrite_le (rp : List Char) (folders : List (List Char)) :
    (joinSlash (rewriteFolders rp folders)).length ≤ (joinSlash folders).length := by
  simp only [rewriteFolders]
  split
  · exact le_refl _
  · rw [joinSlash_splitSlash]
    exact dropPrefixL_length_le _ _

theorem fuelNeed_tail_lt (rp : List Char) (folders : List (List Char)) (h : folders ≠ []) :
    fuelNeed ((rewriteFolders rp folders).tail) + 1 ≤ fuelNeed folders := by
  have hf : fuelNeed folders = 2 * (joinSlash folders).length + 2 := by
    cases folders with
    | nil => exact absurd rfl h
    | cons a l => rfl
  rcases hr : rewriteFolders rp folders with _ | ⟨t, rest⟩
  · exact absurd hr (rewriteFolders_ne_nil rp folders h)
  · have hjoin : (joinSlash (t :: rest)).length ≤ (joinSlash folders).length := by
      rw [← hr]; exact joinSlash_rewrite_le rp folders
    cases rest with
    | nil =>
      simp only [List.tail_cons]
      rw [hf]
      show fuelNeed [] + 1 ≤ _
      simp [fuelNeed]
    | cons b rest' =>
      have hj2 : (joinSlash (t :: b :: rest')).length
          = t.length + 1 + (joinSlash (b :: rest')).length := by
        simp only [joinSlash, List.length_append, List.length_cons]
        omega
      simp only [List.tail_cons]
      rw [hf]
      show fuelNeed (b :: rest') + 1 ≤ _
      have hfn : fuelNeed (b :: rest') = 2 * (joinSlash (b :: rest')).length + 2 := rfl
      omega

/-! ### Totality of the deep walk (C7): cleanliness lemmas -/

theorem cleanB_mk_iff (c : NodeCore) (es : List Node) :
    cleanB (Node.mk c es) = true ↔
      (c.loading = false ∧ c.loadingMore = false ∧ cleanL es = true) := by
  rw [cleanB]
  simp [Bool.and_eq_true, Bool.not_eq_true', and_assoc]

theorem cleanL_mem {es : List Node} (h : cleanL es = true) {e : Node} (he : e ∈ es) :
    cleanB e = true := by
  induction es with
  | nil => cases he
  | cons a es ih =>
    rw [cleanL, Bool.and_eq_true] at h
    rcases List.mem_cons.mp he with rfl | he
    · exact h.1
    · exact ih h.2 he

theorem cleanB_entries {st : Node} (h : cleanB st = true) {e : Node} (he : e ∈ st.entries) :
    cleanB e = true := by
  cases st with
  | mk c es => exact cleanL_mem ((cleanB_mk_iff c es).mp h).2.2 he

theorem cleanB_loading {st : Node} (h : cleanB st = true) : st.core.loading = false := by
  cases st with
  | mk c es => exact ((cleanB_mk_iff c es).mp h).1

theorem cleanB_loadingMore {st : Node} (h : cleanB st = true) :
    st.core.loadingMore = false := by
  cases st with
  | mk c es => exact ((cleanB_mk_iff c es).mp h).2.1

theorem cleanL_append {as bs : List Node} (ha : cleanL as = true) (hb : cleanL bs = true) :
    cleanL (as ++ bs) = true := by
  induction as with
  | nil => simpa using hb
  | cons a as ih =>
    rw [cleanL, Bool.and_eq_true] at ha
    rw [List.cons_append, cleanL, Bool.and_eq_true]
    exact ⟨ha.1, ih ha.2⟩

theorem cleanL_map_mkChild (rp : List Char) (fs : List EntryDef) :
    cleanL (fs.map (mkChild rp)) = true := by
  induction fs with
  | nil => rfl
  | cons f fs ih =>
    rw [List.map_cons, cleanL, Bool.and_eq_true]
    exact ⟨rfl, ih⟩

theorem cleanB_loadEntriesApply {st : Node} (h : cleanB st = true) (r : FetchResult) :
    cleanB (loadEntriesApply st r) = true := by
  cases st with
  | mk c es =>
    obtain ⟨hl, hlm, hce⟩ := (cleanB_mk_iff c es).mp h
    simp only [loadEntriesApply]
    split
    · exact h
    · cases r with
      | success files npn soft =>
        rw [cleanB_mk_iff]
        exact ⟨rfl, hlm, cleanL_map_mkChild _ _⟩
      | hardError msg =>
        rw [cleanB_mk_iff]
        exact ⟨rfl, hlm, hce⟩

theorem fetchMore_not_noop {st : Node} (h1 : st.core.hasMorePages = true)
    (h2 : st.core.loadingMore = false) (r : FetchResult) :
    (fetchMoreStep st r).2 ≠ .noop := by
  simp only [fetchMoreStep, h1, h2, Bool.not_true, Bool.or_false, Bool.false_eq_true,
    if_false]
  cases r <;> simp

theorem fetchMore_success_clean {st : Node} (h : cleanB st = true)
    (h1 : st.core.hasMorePages = true) (r : FetchResult)
    (hs : (fetchMoreStep st r).2 = .success) :
    cleanB (fetchMoreStep st r).1 = true := by
  cases st with
  | mk c es =>
    obtain ⟨hl, hlm, hce⟩ := (cleanB_mk_iff c es).mp h
    simp only [core_mk] at h1
    simp only [fetchMoreStep, core_mk, h1, hlm, Bool.not_true, Bool.or_false,
      Bool.false_eq_true, if_false]
    cases r with
    | success files npn soft =>
      rw [cleanB_mk_iff]
      exact ⟨hl, rfl, cleanL_append hce (cleanL_map_mkChild _ _)⟩
    | hardError msg =>
      exfalso
      simp only [fetchMoreStep, core_mk, h1, hlm, Bool.not_true, Bool.or_false,
        Bool.false_eq_true, if_false] at hs
      exact FMOut.noConfusion hs

theorem attemptFound_mem {target : List Char} {st : Node} {e : Node}
    (h : attemptFound target st = some e) : e ∈ st.entries := by
  unfold attemptFound at h
  rcases hf : st.entries.filter (fun x => x.name == target) with _ | ⟨a, l⟩
  · rw [hf] at h
    exact Option.noConfusion h
  · cases l with
    | nil =>
      rw [hf] at h
      have ha : a = e := by simpa using h
      subst ha
      exact List.mem_of_mem_filter (hf ▸ List.mem_cons_self a [])
    | cons b l' =>
      rw [hf] at h
      exact Option.noConfusion h

theorem findNextLoop_clean (oracle : Nat → FetchResult) (target : List Char) :
    ∀ (b : Nat) (st : Node), cleanB st = true →
      (findNextLoop oracle target b st).2.2 ≠ .stall
      ∧ ∀ e : Node, (findNextLoop oracle target b st).2.2 = .found e → cleanB e = true := by
  intro b
  induction b with
  | zero =>
    intro st h
    simp only [findNextLoop]
    rcases ha : attemptFound target st with _ | e
    · simp only [ha]
      exact ⟨fun hcon => LoopOutcome.noConfusion hcon, fun e he => LoopOutcome.noConfusion he⟩
    · simp only [ha]
      refine ⟨fun hcon => LoopOutcome.noConfusion hcon, fun e' he' => ?_⟩
      have he : e = e' := by injection he'
      subst he
      exact cleanB_entries h (attemptFound_mem ha)
  | succ n ih =>
    intro st h
    simp only [findNextLoop]
    rcases ha : attemptFound target st with _ | e
    · simp only [ha]
      rcases hcond : (!passedAlpha target st && st.core.hasMorePages) with _ | _
      · simp only [hcond, Bool.false_eq_true, if_false]
        exact ⟨fun hcon => LoopOutcome.noConfusion hcon, fun e he => LoopOutcome.noConfusion he⟩
      · have hm : st.core.hasMorePages = true := by
          have h2 := hcond
          rw [Bool.and_eq_true] at h2
          exact h2.2
        have hlm : st.core.loadingMore = false := cleanB_loadingMore h
        simp only [hcond, if_true]
        rcases hf : fetchMoreStep st (oracle (st.core.currentPage + 1)) with ⟨st2, out⟩
        cases out with
        | noop => exact absurd (by rw [hf]) (fetchMore_not_noop hm hlm _)
        | success =>
          have hst2 : cleanB st2 = true := by
            have hsucc : (fetchMoreStep st (oracle (st.core.currentPage + 1))).2 = .success := by
              rw [hf]
            have hcl := fetchMore_success_clean h hm _ hsucc
            rwa [hf] at hcl
          simp only [hf]
          exact ⟨(ih st2 hst2).1, fun e' he' => (ih st2 hst2).2 e' he'⟩
        | failure =>
          simp only [hf]
          exact ⟨fun hcon => LoopOutcome.noConfusion hcon, fun e he => LoopOutcome.noConfusion he⟩
    · simp only [ha]
      refine ⟨fun hcon => LoopOutcome.noConfusion hcon, fun e' he' => ?_⟩
      have he : e = e' := by injection he'
      subst he
      exact cleanB_entries h (attemptFound_mem ha)

/-- C7: for every root node on which no load is in flight and every
segment list, the deep walk never fails: it always completes by invoking
its continuation with some node (the deepest reached) — in particular a
hard fetch failure during paging is absorbed into per-node error state
and the walk returns the current node as the best-effort result rather
than propagating an error (the oracle is arbitrary, so it may answer any
request with a hard error). -/
theorem c7_walk_never_fails (oracle : List (List Char) → Nat → FetchResult) :
    ∀ (fuel : Nat) (path : List (List Char)) (st : Node) (folders : List (List Char)),
      cleanB st = true → fuelNeed folders ≤ fuel →
      isDone (walk oracle fuel path st folders) = true := by
  intro fuel
  induction fuel with
  | zero =>
    intro path st folders hc hfuel
    exfalso
    cases folders with
    | nil => simp [fuelNeed] at hfuel
    | cons a l => simp [fuelNeed] at hfuel
  | succ n ih =>
    intro path st folders hc hfuel
    rcases folders with _ | ⟨f0, fr⟩
    · rfl
    · have hne : (f0 :: fr) ≠ ([] : List (List Char)) := by simp
      have hrest : fuelNeed ((rewriteFolders st.core.rootPath (f0 :: fr)).tail) + 1
          ≤ fuelNeed (f0 :: fr) := fuelNeed_tail_lt _ _ hne
      have hrest' : fuelNeed ((rewriteFolders st.core.rootPath (f0 :: fr)).tail) ≤ n := by
        omega
      simp only [walk, List.isEmpty_cons, Bool.false_eq_true, if_false]
      split
      · split
        · next child heq =>
          refine ih _ child _ ?_ hrest'
          exact (findNextLoop_clean _ _ 50 st hc).2 child (by rw [heq])
        · rfl
        · next heq =>
          exact absurd (by rw [heq]) (findNextLoop_clean _ _ 50 st hc).1
      · split
        · next hl => exact absurd hl (by simp [cleanB_loading hc])
        · split
          · next child heq =>
            refine ih _ child _ ?_ hrest'
            exact (findNextLoop_clean _ _ 50 _ (cleanB_loadEntriesApply hc _)).2 child
              (by rw [heq])
          · rfl
          · next heq =>
            exact absurd (by rw [heq])
              (findNextLoop_clean _ _ 50 _ (cleanB_loadEntriesApply hc _)).1

theorem c7_walk_never_fails_witness :
    cleanB (freshRoot []) = true ∧ fuelNeed [strL "a"] ≤ 4
    ∧ isDone
        (walk (fun _ _ => .hardError (strL "x")) 4 [] (freshRoot []) [strL "a"]) = true :=
  ⟨rfl, by decide,
    c7_walk_never_fails (fun _ _ => .hardError (strL "x")) 4 [] (freshRoot []) [strL "a"]
      rfl (by decide)⟩

end AssistStorage
